import Mathlib

/-!
Shallow embedding of the legacy connection pool in
`src/client/legacy/pool.rs` of hyper-util.

Modelling conventions:
* `Instant` and `Duration` are both modelled as `Nat` (milliseconds);
  `Instant::saturating_duration_since` is `Nat` subtraction, which is
  already saturating.
* A `Vec<Idle<T>>` idle list is modelled as a Lean `List (Idle T)` whose
  HEAD corresponds to the TAIL of the Rust vector: Rust pushes and pops at
  the tail of the vector, so `push` is `cons` and `pop` takes the head.
  The most recently inserted entry is therefore at the head of the list.
* A `VecDeque<oneshot::Sender<T>>` waiter queue is a Lean list whose head
  is the FRONT of the deque (`pop_front` takes the head, `push_back`
  appends at the end).
* `HashMap K V` is modelled as a function `K → Option V`, and
  `HashSet K` as a function `K → Bool`.
* A oneshot sender is modelled by two booleans: `canceled` (the result of
  `is_canceled()`) and `accepts` (whether `send` succeeds).
* A oneshot receiver, as seen by `Checkout::poll_waiter`, is modelled by
  its observable poll state `RxState`.
* The `Poolable` trait is a structure of functions `PoolableImpl`, and
  `Weak` back references are modelled by a boolean recording whether the
  handle holds one (paired, where needed, with the pool state it points
  to).
-/

namespace HyperPool

/-- Reservation returned by `Poolable::reserve` in pool.rs. -/
inductive Reservation (T : Type) where
  | Shared : T → T → Reservation T
  | Unique : T → Reservation T
deriving DecidableEq

/-- The `Poolable` trait of pool.rs as a structure of functions. -/
structure PoolableImpl (T : Type) where
  is_open : T → Bool
  can_share : T → Bool
  reserve : T → Reservation T

/-- Marker for the protocol version (`Ver` in pool.rs). -/
inductive Ver where
  | Auto
  | Http2
deriving DecidableEq

/-- An entry of an idle list (`struct Idle` in pool.rs). -/
structure Idle (T : Type) where
  idle_at : Nat
  value : T
deriving DecidableEq

/-- Model of a `oneshot::Sender` stored in the waiter queue. -/
structure Waiter where
  canceled : Bool
  accepts : Bool
deriving DecidableEq

/-- Model of the poll state of a `oneshot::Receiver` held by a Checkout. -/
inductive RxState (T : Type) where
  | pending
  | value : T → RxState T
  | canceled
deriving DecidableEq

/-- The locked shared state `PoolInner` of pool.rs.  The executor is not
modelled; spawning is reported as an explicit return value instead.  The
`idle_interval_ref` beacon sender is modelled by whether it is set. -/
structure PoolInner (T K : Type) where
  connecting : K → Bool
  idle : K → Option (List (Idle T))
  max_idle_per_host : Nat
  waiters : K → Option (List Waiter)
  idle_interval_ref : Bool
  timer : Bool
  timeout : Option Nat

/-- Pointwise update of a map modelled as a function. -/
def update {K V : Type} [DecidableEq K] (m : K → Option V) (k : K) (v : Option V) :
    K → Option V :=
  fun x => if x = k then v else m x

/-- `Expiration::expires` in pool.rs: `now - idle_at > timeout` with
saturating subtraction, false when no timeout is configured. -/
def expires (timeout : Option Nat) (now idle_at : Nat) : Bool :=
  match timeout with
  | some t => decide (now - idle_at > t)
  | none => false

/-- The freshly created `PoolInner` built by `Pool::new` for an enabled
configuration. -/
def PoolInner.init (T K : Type) (max_idle : Nat) (timeout : Option Nat)
    (timer : Bool) : PoolInner T K :=
  { connecting := fun _ => false
    idle := fun _ => none
    max_idle_per_host := max_idle
    waiters := fun _ => none
    idle_interval_ref := false
    timer := timer
    timeout := timeout }

/-- `struct Config` of pool.rs. -/
structure Config where
  idle_timeout : Option Nat
  max_idle_per_host : Nat
deriving DecidableEq

/-- `Config::is_enabled` in pool.rs. -/
def Config.is_enabled (c : Config) : Bool :=
  decide (c.max_idle_per_host > 0)

/-- `Pool::new` in pool.rs: the inner state is built only for an enabled
configuration; a disabled pool carries no inner state. -/
def Pool.new (T K : Type) (c : Config) (timer : Bool) :
    Option (PoolInner T K) :=
  if c.is_enabled then
    some (PoolInner.init T K c.max_idle_per_host c.idle_timeout timer)
  else none

/-- `IdlePopper::pop` in pool.rs.  The list argument is the idle list with
the most recent entry first (the Rust vector popped from its tail); the
result is the popped entry, if any, together with the remaining list. -/
def IdlePopper.pop (P : PoolableImpl T) (timeout : Option Nat) (now : Nat) :
    List (Idle T) → Option (Idle T) × List (Idle T)
  | [] => (none, [])
  | entry :: rest =>
    if !P.is_open entry.value then IdlePopper.pop P timeout now rest
    else if expires timeout now entry.idle_at then IdlePopper.pop P timeout now rest
    else
      match P.reserve entry.value with
      | .Shared to_reinsert to_checkout =>
        (some ⟨entry.idle_at, to_checkout⟩, ⟨now, to_reinsert⟩ :: rest)
      | .Unique unique => (some ⟨entry.idle_at, unique⟩, rest)

/-- The waiter handoff loop inside `PoolInner::put` in pool.rs: pop
waiters from the front; skip canceled ones; reserve the value and send it;
on a `Shared` reservation keep one half and continue; on a failed send
recover the rejected value and continue.  Returns the value still in hand
(if any) and the remaining queue. -/
def putWaiterLoop (P : PoolableImpl T) : List Waiter → T → Option T × List Waiter
  | [], v => (some v, [])
  | w :: rest, v =>
    if w.canceled then putWaiterLoop P rest v
    else
      match P.reserve v with
      | .Shared to_keep to_send =>
        if w.accepts then putWaiterLoop P rest to_keep
        else putWaiterLoop P rest to_send
      | .Unique uniq =>
        if w.accepts then (none, rest)
        else putWaiterLoop P rest uniq

/-- Minimum eviction interval (`MIN_CHECK` in pool.rs), in milliseconds. -/
def MIN_CHECK : Nat := 90

/-- `PoolInner::spawn_idle_interval` in pool.rs.  Returns the new state
together with the period of the spawned idle task, when one is spawned. -/
def PoolInner.spawn_idle_interval (s : PoolInner T K) :
    PoolInner T K × Option Nat :=
  if s.idle_interval_ref then (s, none)
  else
    match s.timeout with
    | none => (s, none)
    | some dur =>
      if dur = 0 then (s, none)
      else if !s.timer then (s, none)
      else ({ s with idle_interval_ref := true }, some (Nat.max dur MIN_CHECK))

/-- Writing back the mutated waiter queue at the end of the waiter loop in
`PoolInner::put`: the queue entry is removed when it has become empty. -/
def PoolInner.setWaiters [DecidableEq K] (s : PoolInner T K) (key : K)
    (ws : List Waiter) : PoolInner T K :=
  { s with waiters := update s.waiters key (if ws.isEmpty then none else some ws) }

/-- The tail of `PoolInner::put` in pool.rs after the waiter loop, when a
value is still in hand: `idle.entry(key).or_default()`, the
`max_idle_per_host` gate, the push of a fresh `Idle` entry and the call to
`spawn_idle_interval`. -/
def PoolInner.putFinish [DecidableEq K] (s : PoolInner T K) (key : K) (v : T)
    (now : Nat) : PoolInner T K :=
  if s.max_idle_per_host ≤ ((s.idle key).getD []).length then
    { s with idle := update s.idle key (some ((s.idle key).getD [])) }
  else
    (PoolInner.spawn_idle_interval
      { s with idle := (update s.idle key
          (some (⟨now, v⟩ :: (s.idle key).getD []))) }).1

/-- `PoolInner::put` in pool.rs. -/
def PoolInner.put [DecidableEq K] (P : PoolableImpl T) (s : PoolInner T K)
    (key : K) (value : T) (now : Nat) : PoolInner T K :=
  if P.can_share value && (s.idle key).isSome then s
  else
    match s.waiters key with
    | none => PoolInner.putFinish s key value now
    | some ws =>
      match putWaiterLoop P ws value with
      | (none, ws') => PoolInner.setWaiters s key ws'
      | (some v, ws') => PoolInner.putFinish (PoolInner.setWaiters s key ws') key v now

/-- `PoolInner::connected` in pool.rs: remove the key from `connecting`
and drop any waiter queue for it. -/
def PoolInner.connected [DecidableEq K] (s : PoolInner T K) (key : K) :
    PoolInner T K :=
  { s with
    connecting := fun k => if k = key then false else s.connecting k
    waiters := update s.waiters key none }

/-- `PoolInner::clean_waiters` in pool.rs: retain only uncanceled senders,
removing the queue when it becomes empty. -/
def PoolInner.clean_waiters [DecidableEq K] (s : PoolInner T K) (key : K) :
    PoolInner T K :=
  match s.waiters key with
  | none => s
  | some ws =>
    let ws' := ws.filter (fun w => !w.canceled)
    { s with waiters := update s.waiters key (if ws'.isEmpty then none else some ws') }

/-- `PoolInner::clear_expired` in pool.rs, with the configured timeout
`dur` (the code asserts `timeout` is set) and the current instant. -/
def PoolInner.clear_expired (P : PoolableImpl T) (s : PoolInner T K)
    (dur now : Nat) : PoolInner T K :=
  { s with idle := fun k =>
      match s.idle k with
      | none => none
      | some l =>
        if (l.filter (fun e => P.is_open e.value && !decide (now - e.idle_at > dur))).isEmpty
        then none
        else some (l.filter (fun e => P.is_open e.value && !decide (now - e.idle_at > dur))) }

/-- The insertion performed by `Pool::connecting` on the `connecting` set. -/
def PoolInner.insertConnecting [DecidableEq K] (s : PoolInner T K) (key : K) :
    PoolInner T K :=
  { s with connecting := fun k => if k = key then true else s.connecting k }

/-- The `Connecting` token of pool.rs: a key plus whether the token holds
a weak back reference to the pool. -/
structure ConnectingS (K : Type) where
  key : K
  hasPoolRef : Bool
deriving DecidableEq

/-- The `Pooled` handle of pool.rs.  The weak back reference is modelled
by whether the handle holds one. -/
structure PooledS (T K : Type) where
  value : Option T
  is_reused : Bool
  key : K
  hasPoolRef : Bool
deriving DecidableEq

/-- `Pooled::is_pool_enabled` in pool.rs: whether this handle holds a
back reference (`self.pool.0.is_some()`). -/
def PooledS.is_pool_enabled (p : PooledS T K) : Bool := p.hasPoolRef

/-- `Checkout` of pool.rs: the key and the optional waiter receiver. -/
structure CheckoutS (T K : Type) where
  key : K
  waiter : Option (RxState T)

/-- `Pool::checkout` in pool.rs: a fresh checkout with no waiter. -/
def Pool.checkout (T : Type) (key : K) : CheckoutS T K :=
  { key := key, waiter := none }

/-- `Pool::connecting` in pool.rs.  The pool is `none` when disabled.
Returns the optional `Connecting` token and the new pool state. -/
def Pool.connecting [DecidableEq K] (pool : Option (PoolInner T K)) (key : K)
    (ver : Ver) : Option (ConnectingS K) × Option (PoolInner T K) :=
  match ver, pool with
  | .Http2, some s =>
    if s.connecting key then (none, some s)
    else (some ⟨key, true⟩, some (s.insertConnecting key))
  | _, _ => (some ⟨key, false⟩, pool)

/-- `Drop for Connecting` in pool.rs: when the token holds a back
reference that still upgrades, call `connected`. -/
def Connecting.drop [DecidableEq K] (c : ConnectingS K)
    (pool : Option (PoolInner T K)) : Option (PoolInner T K) :=
  if c.hasPoolRef then
    match pool with
    | some s => some (s.connected c.key)
    | none => none
  else pool

/-- `Pool::reuse` in pool.rs: a `Pooled` marked reused, holding a back
reference when the value cannot be shared and the pool is enabled. -/
def Pool.reuse (P : PoolableImpl T) (pool : Option (PoolInner T K)) (key : K)
    (value : T) : PooledS T K :=
  { value := some value
    is_reused := true
    key := key
    hasPoolRef := !P.can_share value && pool.isSome }

/-- `Pool::pooled` in pool.rs.  Returns the new handle, the new pool
state, and the (possibly neutralized) `Connecting` token. -/
def Pool.pooled [DecidableEq K] (P : PoolableImpl T)
    (pool : Option (PoolInner T K)) (conn : ConnectingS K) (value : T)
    (now : Nat) : PooledS T K × Option (PoolInner T K) × ConnectingS K :=
  match pool with
  | some s =>
    match P.reserve value with
    | .Shared to_insert to_return =>
      let s1 := (s.put P conn.key to_insert now).connected conn.key
      (⟨some to_return, false, conn.key, false⟩, some s1,
        { conn with hasPoolRef := false })
    | .Unique v =>
      (⟨some v, false, conn.key, true⟩, some s, conn)
  | none => (⟨some value, false, conn.key, false⟩, none, conn)

/-- A fresh oneshot sender registered by `Checkout::checkout`. -/
def newWaiter : Waiter := { canceled := false, accepts := true }

/-- The idle map mutation of `Checkout::checkout`: pop from the idle list
and remove the key when the list is empty or no entry was found. -/
def Checkout.probeIdle [DecidableEq K] (P : PoolableImpl T) (s : PoolInner T K)
    (key : K) (now : Nat) : PoolInner T K × Option (Idle T) :=
  match s.idle key with
  | none => ({ s with idle := update s.idle key none }, none)
  | some list =>
    match IdlePopper.pop P s.timeout now list with
    | (some e, list') =>
      ({ s with idle := (update s.idle key
          (if list'.isEmpty then none else some list')) }, some e)
    | (none, _) => ({ s with idle := update s.idle key none }, none)

/-- The idle probe and waiter registration inside `Checkout::checkout` in
pool.rs, on the locked inner state.  `hadWaiter` is whether the checkout
already holds a waiter receiver. -/
def Checkout.probe [DecidableEq K] (P : PoolableImpl T) (s : PoolInner T K)
    (key : K) (hadWaiter : Bool) (now : Nat) :
    PoolInner T K × Option (Idle T) :=
  if (Checkout.probeIdle P s key now).2.isNone && !hadWaiter then
    ({ (Checkout.probeIdle P s key now).1 with
        waiters := (update (Checkout.probeIdle P s key now).1.waiters key
          (some ((((Checkout.probeIdle P s key now).1.waiters key).getD [])
            ++ [newWaiter]))) },
      (Checkout.probeIdle P s key now).2)
  else Checkout.probeIdle P s key now

/-- `Checkout::checkout` in pool.rs: `none` short circuits on a disabled
pool; otherwise run the probe and wrap a popped entry via `Pool::reuse`.
Returns the optional handle, the updated checkout and the new pool. -/
def Checkout.checkout [DecidableEq K] (P : PoolableImpl T)
    (pool : Option (PoolInner T K)) (co : CheckoutS T K) (now : Nat) :
    Option (PooledS T K) × CheckoutS T K × Option (PoolInner T K) :=
  match pool with
  | none => (none, co, none)
  | some s =>
    let r := Checkout.probe P s co.key co.waiter.isSome now
    let co1 := if r.2.isNone && co.waiter.isNone
      then { co with waiter := some .pending } else co
    (r.2.map (fun e => Pool.reuse P (some r.1) co.key e.value), co1, some r.1)

/-- Checkout errors (`enum Error` in pool.rs). -/
inductive Error where
  | PoolDisabled
  | CheckoutNoLongerWanted
  | CheckedOutClosedValue
deriving DecidableEq

/-- The poll outcome of a future. -/
inductive Poll (A : Type) where
  | Ready : A → Poll A
  | Pending

/-- `Checkout::poll_waiter` in pool.rs: poll the waiter receiver, if any.
Ready values that are open are wrapped via `Pool::reuse`; closed values
fail with `CheckedOutClosedValue`; a canceled sender fails with
`CheckoutNoLongerWanted`; a pending receiver is kept. -/
def Checkout.poll_waiter (P : PoolableImpl T) (pool : Option (PoolInner T K))
    (co : CheckoutS T K) :
    Poll (Option (Except Error (PooledS T K))) × CheckoutS T K :=
  match co.waiter with
  | some rx =>
    match rx with
    | .value v =>
      if P.is_open v then
        (.Ready (some (.ok (Pool.reuse P pool co.key v))), { co with waiter := none })
      else
        (.Ready (some (.error .CheckedOutClosedValue)), { co with waiter := none })
    | .pending => (.Pending, { co with waiter := some .pending })
    | .canceled =>
      (.Ready (some (.error .CheckoutNoLongerWanted)), { co with waiter := none })
  | none => (.Ready none, co)

/-- `Future::poll for Checkout` in pool.rs: drain the waiter path first,
then the synchronous probe, then fail with `PoolDisabled` on a disabled
pool or stay pending with a registered waiter. -/
def Checkout.poll [DecidableEq K] (P : PoolableImpl T)
    (pool : Option (PoolInner T K)) (co : CheckoutS T K) (now : Nat) :
    Poll (Except Error (PooledS T K)) × CheckoutS T K × Option (PoolInner T K) :=
  match Checkout.poll_waiter P pool co with
  | (.Ready (some (.ok pooled)), co1) => (.Ready (.ok pooled), co1, pool)
  | (.Ready (some (.error e)), co1) => (.Ready (.error e), co1, pool)
  | (.Pending, co1) => (.Pending, co1, pool)
  | (.Ready none, co1) =>
    match Checkout.checkout P pool co1 now with
    | (some pooled, co2, pool2) => (.Ready (.ok pooled), co2, pool2)
    | (none, co2, pool2) =>
      if pool.isSome then (.Pending, co2, pool2)
      else (.Ready (.error .PoolDisabled), co2, pool2)

/-- Length of the idle list stored for a key (zero when absent). -/
def idleLen (s : PoolInner T K) (k : K) : Nat := ((s.idle k).getD []).length

/-- The cap invariant on idle lists. -/
def IdleBounded (s : PoolInner T K) : Prop :=
  ∀ k l, s.idle k = some l → l.length ≤ s.max_idle_per_host

/-- One transition of the locked pool state: each constructor is one of
the operations of pool.rs that runs under the lock. -/
inductive Step [DecidableEq K] (P : PoolableImpl T) :
    PoolInner T K → PoolInner T K → Prop where
  | put (s : PoolInner T K) (key : K) (value : T) (now : Nat) :
      Step P s (s.put P key value now)
  | connected (s : PoolInner T K) (key : K) : Step P s (s.connected key)
  | clean_waiters (s : PoolInner T K) (key : K) : Step P s (s.clean_waiters key)
  | clear_expired (s : PoolInner T K) (dur now : Nat) (h : s.timeout = some dur) :
      Step P s (s.clear_expired P dur now)
  | probe (s : PoolInner T K) (key : K) (hadWaiter : Bool) (now : Nat) :
      Step P s (Checkout.probe P s key hadWaiter now).1
  | connecting (s : PoolInner T K) (key : K) : Step P s (s.insertConnecting key)

/-- Reachability by sequences of locked-state operations. -/
inductive Reachable [DecidableEq K] (P : PoolableImpl T) :
    PoolInner T K → PoolInner T K → Prop where
  | refl (s : PoolInner T K) : Reachable P s s
  | step {s t u : PoolInner T K} :
      Reachable P s t → Step P t u → Reachable P s u

/-! ### Concrete instantiations used to exercise the model -/

/-- A unique-reservation poolable over `Nat`, mirroring the `Uniq` test
type of pool.rs: always open, never shareable. -/
def PUniq : PoolableImpl Nat :=
  { is_open := fun _ => true
    can_share := fun _ => false
    reserve := fun v => .Unique v }

/-- A shareable poolable over `Nat`: always open, always shareable, with
a `Shared` reservation that clones the value. -/
def PShare : PoolableImpl Nat :=
  { is_open := fun _ => true
    can_share := fun _ => true
    reserve := fun v => .Shared v v }

/-- A closable poolable over `Nat × Bool`, mirroring the `CanClose` test
type of pool.rs: open iff the flag is true. -/
def PClose : PoolableImpl (Nat × Bool) :=
  { is_open := fun v => v.2
    can_share := fun _ => false
    reserve := fun v => .Unique v }

/-- Whether `reserve` yields only open values from an open value; the
pop theorem assumes this of the `Poolable` implementation. -/
def reserveKeepsOpen (P : PoolableImpl T) : Prop :=
  ∀ v, P.is_open v = true →
    match P.reserve v with
    | .Shared a b => P.is_open a = true ∧ P.is_open b = true
    | .Unique a => P.is_open a = true

/-- A small concrete pool state with one idle entry for key 0. -/
def demoShared : PoolInner Nat Nat :=
  { connecting := fun _ => false
    idle := fun k => if k = 0 then some [⟨0, 3⟩] else none
    max_idle_per_host := 4
    waiters := fun _ => none
    idle_interval_ref := false
    timer := true
    timeout := some 100 }

/-! ### Helper lemmas -/

theorem spawn_idle_eq (s : PoolInner T K) :
    (PoolInner.spawn_idle_interval s).1.idle = s.idle ∧
    (PoolInner.spawn_idle_interval s).1.max_idle_per_host = s.max_idle_per_host ∧
    (PoolInner.spawn_idle_interval s).1.waiters = s.waiters := by
  unfold PoolInner.spawn_idle_interval
  repeat' split
  all_goals exact ⟨rfl, rfl, rfl⟩

theorem pop_length_le (P : PoolableImpl T) (timeout : Option Nat) (now : Nat) :
    ∀ l : List (Idle T), ((IdlePopper.pop P timeout now l).2).length ≤ l.length := by
  intro l
  induction l with
  | nil => simp [IdlePopper.pop]
  | cons e rest ih =>
    unfold IdlePopper.pop
    cases h1 : P.is_open e.value with
    | false =>
      simp only [h1, Bool.not_false, if_true]
      exact ih.trans (Nat.le_succ _)
    | true =>
      cases h2 : expires timeout now e.idle_at with
      | true =>
        simp only [h1, Bool.not_true, if_false, if_true]
        exact ih.trans (Nat.le_succ _)
      | false =>
        cases h3 : P.reserve e.value with
        | Shared a b => simp [h1, h2, h3]
        | Unique u =>
          simp only [h1, h2, h3, Bool.not_true, if_false]
          exact Nat.le_succ _

theorem putFinish_max [DecidableEq K] (s : PoolInner T K) (key : K) (v : T)
    (now : Nat) :
    (PoolInner.putFinish s key v now).max_idle_per_host = s.max_idle_per_host := by
  unfold PoolInner.putFinish
  split
  · rfl
  · exact (spawn_idle_eq _).2.1

theorem putFinish_waiters [DecidableEq K] (s : PoolInner T K) (key : K) (v : T)
    (now : Nat) :
    (PoolInner.putFinish s key v now).waiters = s.waiters := by
  unfold PoolInner.putFinish
  split
  · rfl
  · exact (spawn_idle_eq _).2.2

theorem putFinish_idle [DecidableEq K] (s : PoolInner T K) (key : K) (v : T)
    (now : Nat) (k : K) :
    (PoolInner.putFinish s key v now).idle k =
      if k = key then
        (if s.max_idle_per_host ≤ ((s.idle key).getD []).length
         then some ((s.idle key).getD [])
         else some (⟨now, v⟩ :: (s.idle key).getD []))
      else s.idle k := by
  unfold PoolInner.putFinish
  split
  case isTrue hmax => simp [update, hmax]
  case isFalse hmax =>
    rw [(spawn_idle_eq _).1]
    simp [update, hmax]

theorem putFinish_bounded [DecidableEq K] (s : PoolInner T K) (key : K) (v : T)
    (now : Nat) (h : IdleBounded s) :
    IdleBounded (PoolInner.putFinish s key v now) := by
  intro k l hl
  rw [putFinish_idle] at hl
  rw [putFinish_max]
  by_cases hk : k = key
  · rw [if_pos hk] at hl
    split at hl
    next hmax =>
      cases hs : s.idle key with
      | some l0 =>
        rw [hs] at hl
        injection hl with hl
        subst hl
        exact h key l0 hs
      | none =>
        rw [hs] at hl
        injection hl with hl
        subst hl
        simp
    next hmax =>
      injection hl with hl
      subst hl
      simp only [List.length_cons]
      omega
  · rw [if_neg hk] at hl
    exact h k l hl

theorem putWaiterLoop_some_nil (P : PoolableImpl T) :
    ∀ (ws : List Waiter) (v v' : T),
      (putWaiterLoop P ws v).1 = some v' → (putWaiterLoop P ws v).2 = [] := by
  intro ws
  induction ws with
  | nil => intro v v' _; rfl
  | cons w rest ih =>
    intro v v' hv
    unfold putWaiterLoop at hv ⊢
    cases hc : w.canceled with
    | true =>
      simp only [hc, if_true] at hv ⊢
      exact ih v v' hv
    | false =>
      simp only [hc, if_false] at hv ⊢
      cases hr : P.reserve v with
      | Shared a b =>
        simp only [hr] at hv ⊢
        cases ha : w.accepts with
        | true => simp only [ha, if_true] at hv ⊢; exact ih a v' hv
        | false => simp only [ha, if_false] at hv ⊢; exact ih b v' hv
      | Unique u =>
        simp only [hr] at hv ⊢
        cases ha : w.accepts with
        | true => simp only [ha, if_true] at hv; cases hv
        | false => simp only [ha, if_false] at hv ⊢; exact ih u v' hv

theorem put_bounded [DecidableEq K] (P : PoolableImpl T) (s : PoolInner T K)
    (key : K) (value : T) (now : Nat) (h : IdleBounded s) :
    IdleBounded (s.put P key value now) := by
  unfold PoolInner.put
  split
  · exact h
  · split
    · exact putFinish_bounded _ _ _ _ h
    · split
      · exact fun k l hl => h k l hl
      · exact putFinish_bounded _ _ _ _ (fun k l hl => h k l hl)

theorem clean_waiters_idle [DecidableEq K] (s : PoolInner T K) (key : K) :
    (s.clean_waiters key).idle = s.idle ∧
    (s.clean_waiters key).max_idle_per_host = s.max_idle_per_host := by
  unfold PoolInner.clean_waiters
  split <;> exact ⟨rfl, rfl⟩

theorem clear_expired_bounded (P : PoolableImpl T) (s : PoolInner T K)
    (dur now : Nat) (h : IdleBounded s) :
    IdleBounded (s.clear_expired P dur now) := by
  intro k l hl
  show l.length ≤ s.max_idle_per_host
  unfold PoolInner.clear_expired at hl
  simp only at hl
  split at hl
  · cases hl
  next l0 heq =>
    split at hl
    · cases hl
    · injection hl with hl
      subst hl
      exact (List.length_filter_le _ _).trans (h k l0 heq)

theorem probeIdle_max [DecidableEq K] (P : PoolableImpl T) (s : PoolInner T K)
    (key : K) (now : Nat) :
    (Checkout.probeIdle P s key now).1.max_idle_per_host = s.max_idle_per_host := by
  unfold Checkout.probeIdle
  split
  · rfl
  · split <;> rfl

theorem probeIdle_bounded [DecidableEq K] (P : PoolableImpl T)
    (s : PoolInner T K) (key : K) (now : Nat) (h : IdleBounded s) :
    IdleBounded (Checkout.probeIdle P s key now).1 := by
  intro k l hl
  rw [probeIdle_max]
  unfold Checkout.probeIdle at hl
  split at hl
  · simp only [update] at hl
    by_cases hk : k = key
    · rw [if_pos hk] at hl; cases hl
    · rw [if_neg hk] at hl; exact h k l hl
  next list heq =>
    split at hl
    next e list' hp =>
      simp only [update] at hl
      by_cases hk : k = key
      · rw [if_pos hk] at hl
        split at hl
        · cases hl
        · injection hl with hl
          subst hl
          have hlen : list'.length ≤ list.length := by
            have h2 := pop_length_le P s.timeout now list
            rw [hp] at h2
            exact h2
          exact hlen.trans (h key list heq)
      · rw [if_neg hk] at hl; exact h k l hl
    next l2 hp =>
      simp only [update] at hl
      by_cases hk : k = key
      · rw [if_pos hk] at hl; cases hl
      · rw [if_neg hk] at hl; exact h k l hl

theorem probe_bounded [DecidableEq K] (P : PoolableImpl T) (s : PoolInner T K)
    (key : K) (hadWaiter : Bool) (now : Nat) (h : IdleBounded s) :
    IdleBounded (Checkout.probe P s key hadWaiter now).1 := by
  unfold Checkout.probe
  split
  · exact fun k l hl => probeIdle_bounded P s key now h k l hl
  · exact probeIdle_bounded P s key now h

theorem step_bounded [DecidableEq K] {P : PoolableImpl T}
    {s s' : PoolInner T K} (hs : Step P s s') (h : IdleBounded s) :
    IdleBounded s' := by
  cases hs with
  | put key value now => exact put_bounded P s key value now h
  | connected key => exact fun k l hl => h k l hl
  | clean_waiters key =>
    intro k l hl
    rw [(clean_waiters_idle s key).1] at hl
    rw [(clean_waiters_idle s key).2]
    exact h k l hl
  | clear_expired dur now hdur => exact clear_expired_bounded P s dur now h
  | probe key hadWaiter now => exact probe_bounded P s key hadWaiter now h
  | connecting key => exact fun k l hl => h k l hl

theorem reachable_bounded [DecidableEq K] {P : PoolableImpl T}
    {s s' : PoolInner T K} (h : Reachable P s s') (h0 : IdleBounded s) :
    IdleBounded s' := by
  induction h with
  | refl => exact h0
  | step _ hs ih => exact step_bounded hs ih

theorem put_idleLen [DecidableEq K] (P : PoolableImpl T) (t : PoolInner T K)
    (key : K) (v : T) (now : Nat) :
    idleLen (t.put P key v now) key = idleLen t key ∨
    (idleLen (t.put P key v now) key = idleLen t key + 1 ∧
      idleLen t key < t.max_idle_per_host) := by
  have hfin : ∀ (u : PoolInner T K) (w : T),
      u.idle = t.idle → u.max_idle_per_host = t.max_idle_per_host →
      idleLen (PoolInner.putFinish u key w now) key = idleLen t key ∨
      (idleLen (PoolInner.putFinish u key w now) key = idleLen t key + 1 ∧
        idleLen t key < t.max_idle_per_host) := by
    intro u w hu hmax
    unfold idleLen
    rw [putFinish_idle, if_pos rfl, hu, hmax]
    split
    next h => left; rfl
    next h =>
      right
      exact ⟨rfl, by omega⟩
  unfold PoolInner.put
  split
  · left; rfl
  · split
    · exact hfin t v rfl rfl
    · split
      · left; rfl
      · exact hfin _ _ rfl rfl

theorem put_waiters_or [DecidableEq K] (P : PoolableImpl T)
    (s : PoolInner T K) (key : K) (v : T) (now : Nat) :
    (s.put P key v now).waiters key = none ∨
    idleLen (s.put P key v now) key = idleLen s key := by
  unfold PoolInner.put
  split
  · right; rfl
  · split
    next hw =>
      left
      rw [putFinish_waiters]
      exact hw
    next ws hw =>
      split
      next ws' hloop => right; rfl
      next v2 ws' hloop =>
        left
        rw [putFinish_waiters]
        have hnil : ws' = [] := by
          have h2 := putWaiterLoop_some_nil P ws v v2 (by rw [hloop])
          rw [hloop] at h2
          exact h2
        subst hnil
        simp [PoolInner.setWaiters, update]

/-! ### Claims -/

/-- Claim C1: in every reachable pool state the idle list stored for any
key has length at most `max_idle_per_host`; and `PoolInner.put` grows the
idle list for a key (by exactly one entry) only when its current length
is strictly below `max_idle_per_host`, leaving the length unchanged
(dropping the value) otherwise. -/
theorem c1_idle_cap [DecidableEq K] (P : PoolableImpl T) (max_idle : Nat)
    (timeout : Option Nat) (timer : Bool) (s : PoolInner T K)
    (h : Reachable P (PoolInner.init T K max_idle timeout timer) s) :
    (∀ k l, s.idle k = some l → l.length ≤ s.max_idle_per_host) ∧
    (∀ (t : PoolInner T K) (key : K) (v : T) (now : Nat),
      (idleLen (t.put P key v now) key ≠ idleLen t key →
        idleLen (t.put P key v now) key = idleLen t key + 1 ∧
        idleLen t key < t.max_idle_per_host) ∧
      (t.max_idle_per_host ≤ idleLen t key →
        idleLen (t.put P key v now) key = idleLen t key)) := by
  constructor
  · refine reachable_bounded h ?_
    intro k l hl
    simp [PoolInner.init] at hl
  · intro t key v now
    constructor
    · intro hne
      rcases put_idleLen P t key v now with heq | ⟨h1, h2⟩
      · exact absurd heq hne
      · exact ⟨h1, h2⟩
    · intro hmax
      rcases put_idleLen P t key v now with heq | ⟨h1, h2⟩
      · exact heq
      · omega

theorem c1_idle_cap_witness :
    ([(⟨5, 7⟩ : Idle Nat)]).length ≤
      ((PoolInner.init Nat Nat 1 none false).put PUniq 0 7 5).max_idle_per_host :=
  (c1_idle_cap PUniq 1 none false _
    (Reachable.step (Reachable.refl _) (Step.put _ 0 7 5))).1
    0 [⟨5, 7⟩] (by decide)

/-- Claim C2: a pool constructed with `max_idle_per_host = 0` has no
inner state, and the first poll of a fresh checkout on it fails with
`PoolDisabled`, leaving the checkout with no waiter registered and no
pool state to touch. -/
theorem c2_pool_disabled [DecidableEq K] (P : PoolableImpl T) (c : Config)
    (timer : Bool) (key : K) (now : Nat) (h : c.max_idle_per_host = 0) :
    Pool.new T K c timer = none ∧
    Checkout.poll P (Pool.new T K c timer) (Pool.checkout T key) now =
      (.Ready (.error .PoolDisabled), Pool.checkout T key, none) := by
  have hnew : Pool.new T K c timer = none := by
    unfold Pool.new Config.is_enabled
    rw [h]
    rfl
  rw [hnew]
  exact ⟨rfl, rfl⟩

theorem c2_pool_disabled_witness :
    Pool.new Nat Nat ⟨some 100, 0⟩ true = none ∧
    Checkout.poll PUniq (Pool.new Nat Nat ⟨some 100, 0⟩ true)
        (Pool.checkout Nat 3) 0 =
      (.Ready (.error .PoolDisabled), Pool.checkout Nat 3, none) :=
  c2_pool_disabled PUniq ⟨some 100, 0⟩ true 3 0 rfl

/-- Claim C4: when the value can be shared and an idle entry for the key
already exists, `PoolInner.put` drops the value and leaves the whole pool
state unchanged. -/
theorem c4_shared_dedup [DecidableEq K] (P : PoolableImpl T)
    (s : PoolInner T K) (key : K) (v : T) (now : Nat)
    (h1 : P.can_share v = true) (h2 : (s.idle key).isSome = true) :
    s.put P key v now = s := by
  unfold PoolInner.put
  rw [h1, h2]
  rfl

theorem c4_shared_dedup_witness : demoShared.put PShare 0 9 1 = demoShared :=
  c4_shared_dedup PShare demoShared 0 9 1 rfl rfl

/-- Claim C6: whenever `PoolInner.put` ends by inserting the value into
the idle list for the key (observable as the idle-list length changing),
no waiter for that key remains queued afterwards: the waiter queue for
the key is gone. -/
theorem c6_waiters_served_first [DecidableEq K] (P : PoolableImpl T)
    (s : PoolInner T K) (key : K) (v : T) (now : Nat)
    (h : idleLen (s.put P key v now) key ≠ idleLen s key) :
    (s.put P key v now).waiters key = none := by
  rcases put_waiters_or P s key v now with hnone | heq
  · exact hnone
  · exact absurd heq h

theorem c6_waiters_served_first_witness :
    ((PoolInner.init Nat Nat 1 none false).put PUniq 0 7 5).waiters 0 = none :=
  c6_waiters_served_first PUniq (PoolInner.init Nat Nat 1 none false) 0 7 5
    (by decide)

/-- Claim C8: `spawn_idle_interval` returns without effect when the
liveness beacon is already set, when no idle timeout is configured, when
the timeout is zero, or when no timer is configured; otherwise it spawns
the eviction task once with period `max(idle_timeout, MIN_CHECK)` where
`MIN_CHECK` is 90 milliseconds, setting the beacon. -/
theorem c8_spawn_idle [DecidableEq K] (s : PoolInner T K) :
    (s.idle_interval_ref = true → PoolInner.spawn_idle_interval s = (s, none)) ∧
    (s.timeout = none → PoolInner.spawn_idle_interval s = (s, none)) ∧
    (s.timeout = some 0 → PoolInner.spawn_idle_interval s = (s, none)) ∧
    (s.timer = false → PoolInner.spawn_idle_interval s = (s, none)) ∧
    (∀ d, s.idle_interval_ref = false → s.timeout = some d → d ≠ 0 →
      s.timer = true →
      PoolInner.spawn_idle_interval s =
        ({ s with idle_interval_ref := true }, some (Nat.max d MIN_CHECK)) ∧
      MIN_CHECK = 90) := by
  refine ⟨?_, ?_, ?_, ?_, ?_⟩
  · intro h
    unfold PoolInner.spawn_idle_interval
    rw [h]
    rfl
  · intro h
    unfold PoolInner.spawn_idle_interval
    rw [h]
    split <;> rfl
  · intro h
    unfold PoolInner.spawn_idle_interval
    rw [h]
    split <;> rfl
  · intro h
    unfold PoolInner.spawn_idle_interval
    rw [h]
    split
    · rfl
    · split
      · rfl
      · split <;> rfl
  · intro d h1 h2 h3 h4
    unfold PoolInner.spawn_idle_interval
    rw [h1, h2, h4]
    refine ⟨?_, rfl⟩
    simp [h3]

theorem c8_spawn_idle_witness :
    PoolInner.spawn_idle_interval demoShared =
      ({ demoShared with idle_interval_ref := true }, some (Nat.max 100 MIN_CHECK)) ∧
    MIN_CHECK = 90 :=
  (c8_spawn_idle demoShared).2.2.2.2 100 rfl rfl (by decide) rfl

/-- Claim C9 counterexample: on a disabled pool, `Pool::reuse` of a
non-shareable value yields a handle with no back reference even though
`can_share` is false, so the claimed equivalence (back reference iff not
shareable) fails as stated. -/
theorem c9_reuse_counterexample :
    ¬ ((Pool.reuse PUniq (none : Option (PoolInner Nat Nat)) 0 5).hasPoolRef
        = true ↔ PUniq.can_share 5 = false) := by
  decide

/-- Claim C9 (amended): `Pool::reuse` constructs a handle marked reused,
holding a weak back reference iff the value cannot be shared AND the pool
is enabled. -/
theorem c9_reuse_amended (P : PoolableImpl T) (pool : Option (PoolInner T K))
    (key : K) (v : T) :
    (Pool.reuse P pool key v).is_reused = true ∧
    (Pool.reuse P pool key v).hasPoolRef = (!P.can_share v && pool.isSome) :=
  ⟨rfl, rfl⟩

/-- Claim C10: `is_pool_enabled` reports whether this handle carries a
back reference; a `Pooled` produced by `Pool::pooled` from a `Shared`
reservation on an enabled pool reports false. -/
theorem c10_shared_pooled_no_ref [DecidableEq K] (P : PoolableImpl T)
    (s : PoolInner T K) (conn : ConnectingS K) (v a b : T) (now : Nat)
    (h : P.reserve v = .Shared a b) :
    (∀ (p : PooledS T K), p.is_pool_enabled = p.hasPoolRef) ∧
    (Pool.pooled P (some s) conn v now).1.is_pool_enabled = false := by
  refine ⟨fun p => rfl, ?_⟩
  unfold Pool.pooled
  rw [h]
  rfl

theorem c10_shared_pooled_no_ref_witness :
    (Pool.pooled PShare (some (PoolInner.init Nat Nat 1 none false))
      ⟨0, true⟩ 3 0).1.is_pool_enabled = false :=
  (c10_shared_pooled_no_ref PShare (PoolInner.init Nat Nat 1 none false)
    ⟨0, true⟩ 3 3 3 0 rfl).2

/-- Claim C3: single flight for multiplexable connections on an enabled
pool: `Pool::connecting` with `Http2` returns a token with a back
reference exactly when the key was not already in `connecting`, inserting
it (so the key is a member while the token is held); when the key was
already present it returns none and leaves the state unchanged; dropping
a token with a back reference removes the key from `connecting`. -/
theorem c3_single_flight [DecidableEq K] (s : PoolInner T K) (key : K) :
    (s.connecting key = false →
      Pool.connecting (some s) key Ver.Http2 =
        (some ⟨key, true⟩, some (s.insertConnecting key)) ∧
      (s.insertConnecting key).connecting key = true) ∧
    (s.connecting key = true →
      Pool.connecting (some s) key Ver.Http2 = (none, some s)) ∧
    (∀ (c : ConnectingS K) (t t' : PoolInner T K), c.hasPoolRef = true →
      Connecting.drop c (some t) = some t' → t'.connecting c.key = false) := by
  refine ⟨?_, ?_, ?_⟩
  · intro h
    unfold Pool.connecting
    dsimp only
    rw [h]
    exact ⟨rfl, by simp [PoolInner.insertConnecting]⟩
  · intro h
    unfold Pool.connecting
    dsimp only
    rw [h]
    rfl
  · intro c t t' hc hd
    unfold Connecting.drop at hd
    rw [hc] at hd
    simp only at hd
    injection hd with hd
    rw [← hd]
    simp [PoolInner.connected]

theorem c3_single_flight_witness :
    Pool.connecting (some demoShared) 0 Ver.Http2 =
      (some ⟨0, true⟩, some (demoShared.insertConnecting 0)) ∧
    (demoShared.insertConnecting 0).connecting 0 = true ∧
    (demoShared.connected 0).connecting 0 = false :=
  ⟨((c3_single_flight demoShared 0).1 rfl).1,
   ((c3_single_flight demoShared 0).1 rfl).2,
   (c3_single_flight demoShared 0).2.2 ⟨0, true⟩ demoShared
     (demoShared.connected 0) rfl rfl⟩

/-- Claim C7: on each poll of a Checkout, the waiter path is drained
before the synchronous idle probe: when the receiver is ready with an
open value the poll yields a reused handle, when the value is closed the
poll fails with `CheckedOutClosedValue`, and when the sender was dropped
or canceled the poll fails with `CheckoutNoLongerWanted`; in each of
these cases the idle probe never runs, so the pool state is returned
untouched. -/
theorem c7_waiter_drained_first [DecidableEq K] (P : PoolableImpl T)
    (pool : Option (PoolInner T K)) (co : CheckoutS T K) (now : Nat) :
    (∀ v, co.waiter = some (.value v) → P.is_open v = true →
      Checkout.poll P pool co now =
        (.Ready (.ok (Pool.reuse P pool co.key v)),
          { co with waiter := none }, pool) ∧
      (Pool.reuse P pool co.key v).is_reused = true) ∧
    (∀ v, co.waiter = some (.value v) → P.is_open v = false →
      Checkout.poll P pool co now =
        (.Ready (.error .CheckedOutClosedValue),
          { co with waiter := none }, pool)) ∧
    (co.waiter = some .canceled →
      Checkout.poll P pool co now =
        (.Ready (.error .CheckoutNoLongerWanted),
          { co with waiter := none }, pool)) := by
  refine ⟨?_, ?_, ?_⟩
  · intro v hw ho
    refine ⟨?_, rfl⟩
    unfold Checkout.poll Checkout.poll_waiter
    rw [hw]
    dsimp only
    rw [ho]
    rfl
  · intro v hw ho
    unfold Checkout.poll Checkout.poll_waiter
    rw [hw]
    dsimp only
    rw [ho]
    rfl
  · intro hw
    unfold Checkout.poll Checkout.poll_waiter
    rw [hw]

theorem c7_waiter_drained_first_witness :
    Checkout.poll PUniq (some demoShared)
        (⟨5, some (.value 7)⟩ : CheckoutS Nat Nat) 0 =
      (.Ready (.ok (Pool.reuse PUniq (some demoShared) 5 7)),
        { (⟨5, some (.value 7)⟩ : CheckoutS Nat Nat) with waiter := none },
        some demoShared) ∧
    (Pool.reuse PUniq (some demoShared) 5 7).is_reused = true :=
  (c7_waiter_drained_first PUniq (some demoShared) ⟨5, some (.value 7)⟩ 0).1
    7 rfl rfl

/-- Claim C5: the idle pop proceeds from the most recently inserted end
of the idle list (the tail of the Rust vector, the head of the model
list), discarding every closed or expired entry it passes over, and the
entry it yields is open and unexpired; for a `Shared` reservation the
retained half is pushed back with a refreshed `idle_at` and the other
half is yielded, for a `Unique` reservation the entry is yielded
directly. -/
theorem c5_pop_lifo (P : PoolableImpl T) (timeout : Option Nat) (now : Nat)
    (hres : reserveKeepsOpen P) :
    ∀ (l : List (Idle T)) (out : Idle T) (l' : List (Idle T)),
      IdlePopper.pop P timeout now l = (some out, l') →
      ∃ dropped e rest,
        l = dropped ++ e :: rest ∧
        (∀ d ∈ dropped,
          P.is_open d.value = false ∨ expires timeout now d.idle_at = true) ∧
        P.is_open e.value = true ∧
        expires timeout now e.idle_at = false ∧
        out.idle_at = e.idle_at ∧
        expires timeout now out.idle_at = false ∧
        P.is_open out.value = true ∧
        (match P.reserve e.value with
         | .Shared to_reinsert to_checkout =>
            out.value = to_checkout ∧ l' = ⟨now, to_reinsert⟩ :: rest
         | .Unique u => out.value = u ∧ l' = rest) := by
  intro l
  induction l with
  | nil =>
    intro out l' hp
    simp [IdlePopper.pop] at hp
  | cons e rest ih =>
    intro out l' hp
    unfold IdlePopper.pop at hp
    cases h1 : P.is_open e.value with
    | false =>
      simp only [h1, Bool.not_false, if_true] at hp
      obtain ⟨dropped, e', rest', hsplit, hdrop, ho, he, hid, hexp, hopen, hm⟩ :=
        ih out l' hp
      refine ⟨e :: dropped, e', rest', ?_, ?_, ho, he, hid, hexp, hopen, hm⟩
      · rw [hsplit]; rfl
      · intro d hd
        rcases List.mem_cons.mp hd with hd | hd
        · subst hd; exact Or.inl h1
        · exact hdrop d hd
    | true =>
      cases h2 : expires timeout now e.idle_at with
      | true =>
        simp only [h1, h2, Bool.not_true, if_false, if_true] at hp
        obtain ⟨dropped, e', rest', hsplit, hdrop, ho, he, hid, hexp, hopen, hm⟩ :=
          ih out l' hp
        refine ⟨e :: dropped, e', rest', ?_, ?_, ho, he, hid, hexp, hopen, hm⟩
        · rw [hsplit]; rfl
        · intro d hd
          rcases List.mem_cons.mp hd with hd | hd
          · subst hd; exact Or.inr h2
          · exact hdrop d hd
      | false =>
        have hro := hres e.value h1
        cases h3 : P.reserve e.value with
        | Shared a b =>
          rw [h3] at hro
          obtain ⟨hra, hrb⟩ := hro
          simp only [h1, h2, h3, Bool.not_true, if_false] at hp
          obtain ⟨hp1, hp2⟩ := Prod.mk.injEq .. ▸ hp
          injection hp1 with hp1
          refine ⟨[], e, rest, rfl, by simp, h1, h2, ?_, ?_, ?_, ?_⟩
          · rw [← hp1]
          · rw [← hp1]; exact h2
          · rw [← hp1]; exact hrb
          · rw [h3, ← hp1, ← hp2]
            exact ⟨rfl, rfl⟩
        | Unique u =>
          rw [h3] at hro
          simp only [h1, h2, h3, Bool.not_true, if_false] at hp
          obtain ⟨hp1, hp2⟩ := Prod.mk.injEq .. ▸ hp
          injection hp1 with hp1
          refine ⟨[], e, rest, rfl, by simp, h1, h2, ?_, ?_, ?_, ?_⟩
          · rw [← hp1]
          · rw [← hp1]; exact h2
          · rw [← hp1]; exact hro
          · rw [h3, ← hp1, ← hp2]
            exact ⟨rfl, rfl⟩

theorem c5_pop_lifo_witness :
    ∃ dropped e rest,
      [(⟨0, (1, false)⟩ : Idle (Nat × Bool)), ⟨0, (2, true)⟩] =
        dropped ++ e :: rest ∧
      (∀ d ∈ dropped,
        PClose.is_open d.value = false ∨ expires none 0 d.idle_at = true) ∧
      PClose.is_open e.value = true ∧
      expires none 0 e.idle_at = false ∧
      (⟨0, (2, true)⟩ : Idle (Nat × Bool)).idle_at = e.idle_at ∧
      expires none 0 (⟨0, (2, true)⟩ : Idle (Nat × Bool)).idle_at = false ∧
      PClose.is_open (⟨0, (2, true)⟩ : Idle (Nat × Bool)).value = true ∧
      (match PClose.reserve e.value with
       | .Shared to_reinsert to_checkout =>
          (⟨0, (2, true)⟩ : Idle (Nat × Bool)).value = to_checkout ∧
          ([] : List (Idle (Nat × Bool))) = ⟨0, to_reinsert⟩ :: rest
       | .Unique u =>
          (⟨0, (2, true)⟩ : Idle (Nat × Bool)).value = u ∧
          ([] : List (Idle (Nat × Bool))) = rest) :=
  c5_pop_lifo PClose none 0 (fun v hv => hv)
    [⟨0, (1, false)⟩, ⟨0, (2, true)⟩] ⟨0, (2, true)⟩ [] (by decide)

end HyperPool
